import Mathlib

/-!
Verification of `warden-admins-emu` (`src/index.js`).

The script resolves the administrators of a target repository (direct
collaborators plus members of admin teams) and reports the result, or any
failure, as a comment on a tracking issue, optionally closing the issue.

We embed `main` as a pure function over an oracle (`World`) describing the
responses of every remote call. The run produces the ordered list of
observable side effects (`Event`): remote calls made, comments posted, and
the issue-close mutation; plus whether `core.setFailed` was invoked and
whether the script crashed with an uncaught exception (the JS source
dereferences `members.filter` / `teams.filter` on a variable left undefined
after a caught listing failure, and performs the per-login
`users.getByUsername` calls outside any try/catch).
-/

deriving instance DecidableEq for Except

structure Collaborator where
  login : String
  isAdmin : Bool
  deriving DecidableEq

structure Team where
  slug : String
  name : String
  permission : String
  deriving DecidableEq

inductive Event where
  | getRepo (org repo : String)
  | listCollaborators (org repo : String)
  | listTeams (org repo : String)
  | listTeamMembers (org slug : String)
  | getUser (login : String)
  | comment (org repo issueNumber body : String)
  | close (org repo issueNumber : String)
  deriving DecidableEq

/-- Responses of the remote API, one field per distinct call site of the
script. `getRepo` fails with an HTTP status and a message (the script
distinguishes status 404); the listing calls fail with a message. -/
structure World where
  getRepo : String → String → Except (Nat × String) Unit
  listCollaborators : String → String → Except String (List Collaborator)
  listTeams : String → String → Except String (List Team)
  listTeamMembers : String → String → Except String (List String)
  getUserEmail : String → Except String String

/-- The action inputs read by `main` via `core.getInput`. -/
structure Inputs where
  actor : String
  body : String
  closeIssue : Bool
  issueNumber : String
  issueOrg : String
  org : String
  repo : String
  deriving DecidableEq

structure RunResult where
  events : List Event
  failed : Bool
  crashed : Bool
  deriving DecidableEq

/-- JS `String.prototype.trim`: strip leading and trailing whitespace. -/
def jsTrim (s : String) : String :=
  ⟨((s.data.dropWhile Char.isWhitespace).reverse.dropWhile Char.isWhitespace).reverse⟩

/-- JS `String.prototype.split(' ')`: cut at every single space character;
consecutive spaces produce empty tokens, and the result is never empty. -/
def splitSp : List Char → List (List Char)
  | [] => [[]]
  | c :: rest =>
    match splitSp rest with
    | [] => [[]]
    | t :: ts => if c = ' ' then [] :: t :: ts else (c :: t) :: ts

/-- `const queryRepo = _body[_body.length - 1]` where
`_body = body.trim().split(' ')`. -/
def queryRepoOf (inp : Inputs) : String :=
  ⟨(splitSp (jsTrim inp.body).data).getLastD []⟩

/-- Every error comment begins with this mention of the actor. -/
def mention (actor : String) : String :=
  "@" ++ (actor ++ "\n\n")

def repoNotFoundBody (inp : Inputs) (queryRepo : String) : String :=
  mention inp.actor ++
    ("There was an error retrieving the direct admins for `" ++
      (inp.repo ++
        ("`:\n\nThe repository `" ++
          (inp.org ++
            ("/" ++
              (queryRepo ++
                ("` does not exist in the target organization `" ++
                  (inp.org ++
                    "`.\n\nEnsure you\x27ve provided the correct organization and repository name."))))))))

def verificationErrorBody (inp : Inputs) (queryRepo msg : String) : String :=
  mention inp.actor ++
    ("There was an error verifying the repository " ++
      (queryRepo ++ (" exists:\n\n" ++ msg)))

def collaboratorErrorBody (inp : Inputs) (msg : String) : String :=
  mention inp.actor ++
    ("There was an error retrieving the direct admins for `" ++
      (inp.org ++ ("/" ++ (inp.repo ++ ("`:\n\n" ++ msg)))))

def teamErrorBody (inp : Inputs) (msg : String) : String :=
  mention inp.actor ++
    ("There was an error retrieving the teams for `" ++
      (inp.org ++ ("/" ++ (inp.repo ++ ("`:\n\n" ++ msg)))))

def memberErrorBody (inp : Inputs) (teamName msg : String) : String :=
  mention inp.actor ++
    ("There was an error retrieving the members for " ++
      (teamName ++ (":\n\n" ++ msg)))

def noAdminsBody (inp : Inputs) (queryRepo : String) : String :=
  mention inp.actor ++ ("There are no admins for " ++ queryRepo)

/-- The literal head of the success comment. -/
def successLit : String :=
  "The following users have been identified as having `administrator` access to https://github.com/"

def successHeader (inp : Inputs) (queryRepo : String) : String :=
  successLit ++ (inp.org ++ ("/" ++ (queryRepo ++ ":\n\n")))

/-- `sendComment` always posts to `issueOrg`/`repo` at `issueNumber`. -/
def commentEvent (inp : Inputs) (body : String) : Event :=
  Event.comment inp.issueOrg inp.repo inp.issueNumber body

/-- `admins = members.filter(m => m.permissions.admin).map(m => m.login)`. -/
def directAdmins (cs : List Collaborator) : List String :=
  (cs.filter (fun c => c.isAdmin)).map (fun c => c.login)

/-- `adminTeams = teams.filter(t => t.permission === 'admin')`. -/
def adminTeamsOf (ts : List Team) : List Team :=
  ts.filter (fun t => t.permission == "admin")

/-- `if (!admins.includes(member.login)) admins.push(member.login)`. -/
def addNew (acc : List String) (m : String) : List String :=
  if acc.contains m then acc else acc ++ [m]

def addMembers (acc : List String) (ms : List String) : List String :=
  ms.foldl addNew acc

/-- Final step: empty-set check, email resolution (uncaught on failure),
success comment, and the optional issue close. -/
def closeStep (inp : Inputs) (evs : List Event) (failed : Bool) : RunResult :=
  if inp.closeIssue then
    ⟨evs ++ [Event.close inp.issueOrg inp.repo inp.issueNumber], failed, false⟩
  else
    ⟨evs, failed, false⟩

/-- The email-resolution loop of the success branch: accumulates the comment
body and the `getUser` events; the third component records an uncaught
`getByUsername` failure. -/
def emailLoop (w : World) : List String → String → List Event → String × List Event × Bool
  | [], body, evs => (body, evs, false)
  | a :: rest, body, evs =>
    match w.getUserEmail a with
    | .error _ => (body, evs ++ [Event.getUser a], true)
    | .ok email => emailLoop w rest (body ++ "- " ++ email ++ "\n") (evs ++ [Event.getUser a])

def finish (w : World) (inp : Inputs) (queryRepo : String) (admins : List String)
    (evs : List Event) (failed : Bool) : RunResult :=
  if admins.isEmpty then
    closeStep inp (evs ++ [commentEvent inp (noAdminsBody inp queryRepo)]) true
  else
    match emailLoop w admins (successHeader inp queryRepo) evs with
    | (body, evs2, crashed) =>
      if crashed then ⟨evs2, failed, true⟩
      else closeStep inp (evs2 ++ [commentEvent inp body]) failed

/-- The per-team member-expansion loop: a failing team posts one comment
naming the team and marks the run failed, then the loop continues. -/
def teamLoop (w : World) (inp : Inputs) (queryRepo : String) :
    List Team → List String → List Event → Bool → RunResult
  | [], admins, evs, failed => finish w inp queryRepo admins evs failed
  | t :: rest, admins, evs, failed =>
    match w.listTeamMembers inp.org t.slug with
    | .error msg =>
      teamLoop w inp queryRepo rest admins
        (evs ++ [Event.listTeamMembers inp.org t.slug,
                 commentEvent inp (memberErrorBody inp t.name msg)]) true
    | .ok ms =>
      teamLoop w inp queryRepo rest (addMembers admins ms)
        (evs ++ [Event.listTeamMembers inp.org t.slug]) failed

/-- Team listing; on failure the script posts a comment, sets failed, and
then crashes dereferencing the undefined `teams` variable. -/
def afterCollab (w : World) (inp : Inputs) (queryRepo : String) (admins : List String)
    (evs : List Event) (failed : Bool) : RunResult :=
  match w.listTeams inp.org queryRepo with
  | .error msg =>
    ⟨evs ++ [Event.listTeams inp.org queryRepo,
             commentEvent inp (teamErrorBody inp msg)], true, true⟩
  | .ok ts =>
    teamLoop w inp queryRepo (adminTeamsOf ts) admins
      (evs ++ [Event.listTeams inp.org queryRepo]) failed

/-- Collaborator listing; on failure the script posts a comment, sets failed,
and then crashes dereferencing the undefined `members` variable. -/
def afterVerify (w : World) (inp : Inputs) (queryRepo : String)
    (evs : List Event) (failed : Bool) : RunResult :=
  match w.listCollaborators inp.org queryRepo with
  | .error msg =>
    ⟨evs ++ [Event.listCollaborators inp.org queryRepo,
             commentEvent inp (collaboratorErrorBody inp msg)], true, true⟩
  | .ok cs =>
    afterCollab w inp queryRepo (directAdmins cs)
      (evs ++ [Event.listCollaborators inp.org queryRepo]) failed

/-- The whole `main`: the existence check returns early (without
`core.setFailed`) on a 404, posts a verification-error comment and
continues on any other failure. -/
def run (w : World) (inp : Inputs) : RunResult :=
  match w.getRepo inp.org (queryRepoOf inp) with
  | .error (status, msg) =>
    if status == 404 then
      ⟨[Event.getRepo inp.org (queryRepoOf inp),
        commentEvent inp (repoNotFoundBody inp (queryRepoOf inp))], false, false⟩
    else
      afterVerify w inp (queryRepoOf inp)
        [Event.getRepo inp.org (queryRepoOf inp),
         commentEvent inp (verificationErrorBody inp (queryRepoOf inp) msg)] true
  | .ok _ =>
    afterVerify w inp (queryRepoOf inp) [Event.getRepo inp.org (queryRepoOf inp)] false

/-- Pure mirror of the admin accumulation performed by `teamLoop`. -/
def teamExpansion (w : World) (org : String) (ts : List Team) (acc : List String) : List String :=
  ts.foldl (fun acc t =>
    match w.listTeamMembers org t.slug with
    | .error _ => acc
    | .ok ms => addMembers acc ms) acc

/-- Pure mirror of the events emitted by `teamLoop`. -/
def teamEvents (w : World) (inp : Inputs) : List Team → List Event
  | [] => []
  | t :: rest =>
    (match w.listTeamMembers inp.org t.slug with
     | .error msg => [Event.listTeamMembers inp.org t.slug,
                      commentEvent inp (memberErrorBody inp t.name msg)]
     | .ok _ => [Event.listTeamMembers inp.org t.slug]) ++ teamEvents w inp rest

/-- Pure mirror of the failure flag raised inside `teamLoop`. -/
def teamFailed (w : World) (org : String) : List Team → Bool
  | [] => false
  | t :: rest =>
    (match w.listTeamMembers org t.slug with
     | .error _ => true
     | .ok _ => false) || teamFailed w org rest

def isCommentEv : Event → Bool
  | .comment _ _ _ _ => true
  | _ => false

def isCloseEv : Event → Bool
  | .close _ _ _ => true
  | _ => false

def hasComment (l : List Event) : Prop :=
  ∃ e ∈ l, isCommentEv e = true

/-- The five non-success outcomes of the run other than `RepoNotFound`:
a non-404 existence-check failure (`VerificationError`), a collaborator
listing failure, a team listing failure, a member-lookup failure for some
admin team, or an empty merged admin set. -/
def errorOutcomeStep (w : World) (inp : Inputs) : Prop :=
  (∃ s m, (s == 404) = false ∧ w.getRepo inp.org (queryRepoOf inp) = .error (s, m))
  ∨ (w.getRepo inp.org (queryRepoOf inp) = .ok () ∧
      ∃ m, w.listCollaborators inp.org (queryRepoOf inp) = .error m)
  ∨ (∃ cs, w.getRepo inp.org (queryRepoOf inp) = .ok () ∧
      w.listCollaborators inp.org (queryRepoOf inp) = .ok cs ∧
      ∃ m, w.listTeams inp.org (queryRepoOf inp) = .error m)
  ∨ (∃ cs ts, w.getRepo inp.org (queryRepoOf inp) = .ok () ∧
      w.listCollaborators inp.org (queryRepoOf inp) = .ok cs ∧
      w.listTeams inp.org (queryRepoOf inp) = .ok ts ∧
      ∃ t ∈ adminTeamsOf ts, ∃ m, w.listTeamMembers inp.org t.slug = .error m)
  ∨ (∃ cs ts, w.getRepo inp.org (queryRepoOf inp) = .ok () ∧
      w.listCollaborators inp.org (queryRepoOf inp) = .ok cs ∧
      w.listTeams inp.org (queryRepoOf inp) = .ok ts ∧
      teamExpansion w inp.org (adminTeamsOf ts) (directAdmins cs) = [])

/-- Fixed inputs for concrete evaluations: the tracking issue lives in
`iorg/tracker` issue 7, the target repository is `acme/target-repo` (the
last token of the body), and issue closure is requested. -/
def inp0 : Inputs := ⟨"octocat", "admins target-repo", true, "7", "iorg", "acme", "tracker"⟩

/-- Existence check answers 404. -/
def w404 : World :=
  ⟨fun _ _ => .error (404, "Not Found"), fun _ _ => .ok [], fun _ _ => .ok [],
   fun _ _ => .ok [], fun _ => .ok ""⟩

/-- Existence check fails with a 500; the collaborator listing fails too. -/
def wVer : World :=
  ⟨fun _ _ => .error (500, "boom"), fun _ _ => .error "down", fun _ _ => .ok [],
   fun _ _ => .ok [], fun _ => .ok ""⟩

/-- All remote calls succeed, one direct admin, no teams, but the per-login
profile lookup fails. -/
def wEmailFail : World :=
  ⟨fun _ _ => .ok (), fun _ _ => .ok [⟨"alice", true⟩], fun _ _ => .ok [],
   fun _ _ => .ok [], fun _ => .error "gone"⟩

/-- A failure at one of the four guarded remote call sites: the existence
check (any status), the collaborator listing, the team listing, or the
member lookup of some admin team. -/
def remoteStepFailure (w : World) (inp : Inputs) : Prop :=
  (∃ s m, w.getRepo inp.org (queryRepoOf inp) = .error (s, m))
  ∨ (w.getRepo inp.org (queryRepoOf inp) = .ok () ∧
      ∃ m, w.listCollaborators inp.org (queryRepoOf inp) = .error m)
  ∨ (∃ cs, w.getRepo inp.org (queryRepoOf inp) = .ok () ∧
      w.listCollaborators inp.org (queryRepoOf inp) = .ok cs ∧
      ∃ m, w.listTeams inp.org (queryRepoOf inp) = .error m)
  ∨ (∃ cs ts, w.getRepo inp.org (queryRepoOf inp) = .ok () ∧
      w.listCollaborators inp.org (queryRepoOf inp) = .ok cs ∧
      w.listTeams inp.org (queryRepoOf inp) = .ok ts ∧
      ∃ t ∈ adminTeamsOf ts, ∃ m, w.listTeamMembers inp.org t.slug = .error m)

/-- The shape every posted comment body has: an `@actor` mention prefix for
the six failure comments, or the fixed success text for the success
comment. -/
def commentShape (inp : Inputs) (e : Event) : Prop :=
  ∀ o r n b, e = Event.comment o r n b →
    (∃ t, b = mention inp.actor ++ t) ∨ (∃ t, b = successLit ++ t)

/-- All remote calls succeed: one direct admin (`alice`) plus a non-admin
(`bob`), no teams, emails resolve to `login@x`. -/
def wSuccess : World :=
  ⟨fun _ _ => .ok (), fun _ _ => .ok [⟨"alice", true⟩, ⟨"bob", false⟩], fun _ _ => .ok [],
   fun _ _ => .ok [], fun a => .ok (a ++ "@x")⟩

/-- Collaborator list in which the same admin login appears twice. -/
def wDup : World :=
  ⟨fun _ _ => .ok (), fun _ _ => .ok [⟨"alice", true⟩, ⟨"alice", true⟩], fun _ _ => .ok [],
   fun _ _ => .ok [], fun a => .ok (a ++ "@x")⟩

/-- Admin resolution with one admin team: `alice` is both a direct admin
and a `core` member, `carol` only a `core` member, `docs` has no admin
permission. -/
def wTeams : World :=
  ⟨fun _ _ => .ok (), fun _ _ => .ok [⟨"alice", true⟩, ⟨"bob", false⟩],
   fun _ _ => .ok [⟨"core", "Core", "admin"⟩, ⟨"docs", "Docs", "pull"⟩],
   fun _ slug => if slug == "core" then .ok ["alice", "carol"] else .error "no such team",
   fun a => .ok (a ++ "@x")⟩

/-- The member lists of the given teams, concatenated in team-listing order
(failing teams contribute nothing). -/
def memberConcat (w : World) (org : String) : List Team → List String
  | [] => []
  | t :: rest =>
    (match w.listTeamMembers org t.slug with
     | .error _ => []
     | .ok ms => ms) ++ memberConcat w org rest

/-- One `- email\n` line per login, in order. -/
def emailLines (e : String → String) : List String → String
  | [] => ""
  | a :: rest => ("- " ++ (e a ++ "\n")) ++ emailLines e rest

def csTeams : List Collaborator := [⟨"alice", true⟩, ⟨"bob", false⟩]

def tsTeams : List Team := [⟨"core", "Core", "admin"⟩, ⟨"docs", "Docs", "pull"⟩]

def isOkB {ε α : Type} : Except ε α → Bool
  | .ok _ => true
  | .error _ => false

/-- Number of occurrences of the event `c` in an event list. -/
def countEvent (c : Event) : List Event → Nat
  | [] => 0
  | e :: rest => (if e = c then 1 else 0) + countEvent c rest

def tsC7 : List Team := [⟨"t", "TeamT", "admin"⟩, ⟨"u", "TeamU", "admin"⟩]

/-- Member lookup fails for team `t` (TeamT) and succeeds for team `u`
(TeamU) with member `carol`; no direct collaborators. -/
def wC7 : World :=
  ⟨fun _ _ => .ok (), fun _ _ => .ok [], fun _ _ => .ok tsC7,
   fun _ slug => if slug == "u" then .ok ["carol"] else .error "boom",
   fun a => .ok (a ++ "@x")⟩

/-- One non-admin collaborator, no teams: the merged admin set is empty. -/
def wEmpty : World :=
  ⟨fun _ _ => .ok (), fun _ _ => .ok [⟨"bob", false⟩], fun _ _ => .ok [],
   fun _ _ => .ok [], fun a => .ok (a ++ "@x")⟩

def closeFree (l : List Event) : Prop := ∀ e ∈ l, isCloseEv e = false

/-- The close mutation, when present, is the single final event. -/
def closeLast (inp : Inputs) (l : List Event) : Prop :=
  closeFree l ∨
    ∃ pre, l = pre ++ [Event.close inp.issueOrg inp.repo inp.issueNumber] ∧ closeFree pre

/-- The repository argument of the repository-data calls (`repos.get`,
`repos.listCollaborators`, `repos.listTeams`). -/
def repoCallTarget : Event → Option String
  | .getRepo _ r => some r
  | .listCollaborators _ r => some r
  | .listTeams _ r => some r
  | _ => none

/-- The repository argument of the tracking-issue calls
(`issues.createComment`, `issues.update`). -/
def issueCallRepo : Event → Option String
  | .comment _ r _ _ => some r
  | .close _ r _ => some r
  | _ => none

/-- Every repository-data call of the event targets `q`, and every
tracking-issue call targets the `repo` input. -/
def eventReposOk (inp : Inputs) (q : String) (e : Event) : Prop :=
  (∀ r, repoCallTarget e = some r → r = q) ∧ (∀ r, issueCallRepo e = some r → r = inp.repo)

theorem teamLoop_eq (w : World) (inp : Inputs) (q : String) (ts : List Team) :
    ∀ (admins : List String) (evs : List Event) (failed : Bool),
      teamLoop w inp q ts admins evs failed =
        finish w inp q (teamExpansion w inp.org ts admins)
          (evs ++ teamEvents w inp ts) (failed || teamFailed w inp.org ts) := by
  induction ts with
  | nil =>
    intro a e f
    simp [teamLoop, teamExpansion, teamEvents, teamFailed]
  | cons t rest ih =>
    intro a e f
    cases h : w.listTeamMembers inp.org t.slug with
    | error msg =>
      simp only [teamLoop, h]
      rw [ih]
      simp [teamExpansion, teamEvents, teamFailed, h, List.append_assoc]
    | ok ms =>
      simp only [teamLoop, h]
      rw [ih]
      simp [teamExpansion, teamEvents, teamFailed, h, List.append_assoc]

theorem hasComment_append_left {evs : List Event} (ex : List Event)
    (h : hasComment evs) : hasComment (evs ++ ex) := by
  obtain ⟨e, he, hc⟩ := h
  exact ⟨e, List.mem_append_left ex he, hc⟩

theorem closeStep_failed (inp : Inputs) (evs : List Event) (f : Bool) :
    (closeStep inp evs f).failed = f := by
  unfold closeStep
  split <;> rfl

theorem closeStep_events_ext (inp : Inputs) (evs : List Event) (f : Bool) :
    ∃ ex, (closeStep inp evs f).events = evs ++ ex := by
  unfold closeStep
  split
  · exact ⟨[Event.close inp.issueOrg inp.repo inp.issueNumber], rfl⟩
  · exact ⟨[], by simp⟩

theorem emailLoop_events_ext (w : World) (l : List String) :
    ∀ (b : String) (evs : List Event), ∃ ex, (emailLoop w l b evs).2.1 = evs ++ ex := by
  induction l with
  | nil => intro b evs; exact ⟨[], by simp [emailLoop]⟩
  | cons a rest ih =>
    intro b evs
    cases h : w.getUserEmail a with
    | error m => exact ⟨[Event.getUser a], by simp [emailLoop, h]⟩
    | ok em =>
      obtain ⟨ex, hex⟩ := ih (b ++ "- " ++ em ++ "\n") (evs ++ [Event.getUser a])
      exact ⟨[Event.getUser a] ++ ex, by simp [emailLoop, h, hex]⟩

theorem finish_events_ext (w : World) (inp : Inputs) (q : String) (a : List String)
    (evs : List Event) (f : Bool) :
    ∃ ex, (finish w inp q a evs f).events = evs ++ ex := by
  unfold finish
  split
  · obtain ⟨ex, hex⟩ := closeStep_events_ext inp (evs ++ [commentEvent inp (noAdminsBody inp q)]) true
    exact ⟨[commentEvent inp (noAdminsBody inp q)] ++ ex, by simp [hex]⟩
  · rcases hml : emailLoop w a (successHeader inp q) evs with ⟨b, evs2, cr⟩
    obtain ⟨ex1, hex1⟩ := emailLoop_events_ext w a (successHeader inp q) evs
    rw [hml] at hex1
    simp only at hex1
    subst hex1
    cases cr with
    | true => exact ⟨ex1, by simp⟩
    | false =>
      obtain ⟨ex2, hex2⟩ := closeStep_events_ext inp (evs ++ ex1 ++ [commentEvent inp b]) f
      exact ⟨ex1 ++ ([commentEvent inp b] ++ ex2), by
        simpa [List.append_assoc] using hex2⟩

theorem finish_failed_true (w : World) (inp : Inputs) (q : String) (a : List String)
    (evs : List Event) : (finish w inp q a evs true).failed = true := by
  unfold finish
  split
  · exact closeStep_failed ..
  · rcases hml : emailLoop w a (successHeader inp q) evs with ⟨b, evs2, cr⟩
    cases cr with
    | true => rfl
    | false => exact closeStep_failed ..

theorem finish_failed_origin (w : World) (inp : Inputs) (q : String) (a : List String)
    (evs : List Event) (f : Bool) (h : (finish w inp q a evs f).failed = true) :
    f = true ∨ hasComment (finish w inp q a evs f).events := by
  revert h
  unfold finish
  split
  · intro _
    right
    obtain ⟨ex, hex⟩ := closeStep_events_ext inp (evs ++ [commentEvent inp (noAdminsBody inp q)]) true
    rw [hex]
    refine hasComment_append_left ex ?_
    exact ⟨commentEvent inp (noAdminsBody inp q), by simp, rfl⟩
  · rcases hml : emailLoop w a (successHeader inp q) evs with ⟨b, evs2, cr⟩
    cases cr with
    | true => intro h; exact Or.inl h
    | false =>
      intro h
      simp [closeStep_failed] at h
      exact Or.inl h

theorem hasComment_append_right (evs : List Event) {ex : List Event}
    (h : hasComment ex) : hasComment (evs ++ ex) := by
  obtain ⟨e, he, hc⟩ := h
  exact ⟨e, List.mem_append_right evs he, hc⟩

theorem teamLoop_events_ext (w : World) (inp : Inputs) (q : String) (ts : List Team)
    (a : List String) (evs : List Event) (f : Bool) :
    ∃ ex, (teamLoop w inp q ts a evs f).events = evs ++ ex := by
  rw [teamLoop_eq]
  obtain ⟨ex, hex⟩ := finish_events_ext w inp q (teamExpansion w inp.org ts a)
    (evs ++ teamEvents w inp ts) (f || teamFailed w inp.org ts)
  exact ⟨teamEvents w inp ts ++ ex, by rw [hex]; simp [List.append_assoc]⟩

theorem teamLoop_failed_true (w : World) (inp : Inputs) (q : String) (ts : List Team)
    (a : List String) (evs : List Event) :
    (teamLoop w inp q ts a evs true).failed = true := by
  rw [teamLoop_eq]
  simp only [Bool.true_or]
  exact finish_failed_true ..

theorem teamFailed_comment (w : World) (inp : Inputs) (ts : List Team)
    (h : teamFailed w inp.org ts = true) : hasComment (teamEvents w inp ts) := by
  induction ts with
  | nil => simp [teamFailed] at h
  | cons t rest ih =>
    cases hm : w.listTeamMembers inp.org t.slug with
    | error msg =>
      refine ⟨commentEvent inp (memberErrorBody inp t.name msg), ?_, rfl⟩
      simp [teamEvents, hm]
    | ok ms =>
      simp only [teamFailed, hm, Bool.false_or] at h
      simp only [teamEvents, hm]
      exact hasComment_append_right _ (ih h)

theorem teamLoop_failed_origin (w : World) (inp : Inputs) (q : String) (ts : List Team)
    (a : List String) (evs : List Event) (f : Bool)
    (h : (teamLoop w inp q ts a evs f).failed = true) :
    f = true ∨ hasComment (teamLoop w inp q ts a evs f).events := by
  rw [teamLoop_eq] at h ⊢
  rcases finish_failed_origin _ _ _ _ _ _ h with h1 | h2
  · rcases Bool.or_eq_true_iff.mp h1 with hf | htf
    · exact Or.inl hf
    · right
      obtain ⟨ex, hex⟩ := finish_events_ext w inp q (teamExpansion w inp.org ts a)
        (evs ++ teamEvents w inp ts) (f || teamFailed w inp.org ts)
      rw [hex]
      exact hasComment_append_left ex
        (hasComment_append_right evs (teamFailed_comment w inp ts htf))
  · exact Or.inr h2

theorem afterCollab_events_ext (w : World) (inp : Inputs) (q : String) (a : List String)
    (evs : List Event) (f : Bool) :
    ∃ ex, (afterCollab w inp q a evs f).events = evs ++ ex := by
  unfold afterCollab
  cases h : w.listTeams inp.org q with
  | error msg =>
    exact ⟨[Event.listTeams inp.org q, commentEvent inp (teamErrorBody inp msg)], rfl⟩
  | ok ts =>
    obtain ⟨ex, hex⟩ := teamLoop_events_ext w inp q (adminTeamsOf ts) a
      (evs ++ [Event.listTeams inp.org q]) f
    exact ⟨[Event.listTeams inp.org q] ++ ex, by rw [hex]; simp [List.append_assoc]⟩

theorem afterCollab_failed_origin (w : World) (inp : Inputs) (q : String) (a : List String)
    (evs : List Event) (f : Bool) (h : (afterCollab w inp q a evs f).failed = true) :
    f = true ∨ hasComment (afterCollab w inp q a evs f).events := by
  revert h
  unfold afterCollab
  cases h : w.listTeams inp.org q with
  | error msg =>
    intro _
    right
    exact ⟨commentEvent inp (teamErrorBody inp msg), by simp, rfl⟩
  | ok ts =>
    intro hh
    exact teamLoop_failed_origin w inp q (adminTeamsOf ts) a
      (evs ++ [Event.listTeams inp.org q]) f hh

theorem afterVerify_events_ext (w : World) (inp : Inputs) (q : String)
    (evs : List Event) (f : Bool) :
    ∃ ex, (afterVerify w inp q evs f).events = evs ++ ex := by
  unfold afterVerify
  cases h : w.listCollaborators inp.org q with
  | error msg =>
    exact ⟨[Event.listCollaborators inp.org q, commentEvent inp (collaboratorErrorBody inp msg)], rfl⟩
  | ok cs =>
    obtain ⟨ex, hex⟩ := afterCollab_events_ext w inp q (directAdmins cs)
      (evs ++ [Event.listCollaborators inp.org q]) f
    exact ⟨[Event.listCollaborators inp.org q] ++ ex, by rw [hex]; simp [List.append_assoc]⟩

theorem afterVerify_failed_origin (w : World) (inp : Inputs) (q : String)
    (evs : List Event) (f : Bool) (h : (afterVerify w inp q evs f).failed = true) :
    f = true ∨ hasComment (afterVerify w inp q evs f).events := by
  revert h
  unfold afterVerify
  cases h : w.listCollaborators inp.org q with
  | error msg =>
    intro _
    right
    exact ⟨commentEvent inp (collaboratorErrorBody inp msg), by simp, rfl⟩
  | ok cs =>
    intro hh
    exact afterCollab_failed_origin w inp q (directAdmins cs)
      (evs ++ [Event.listCollaborators inp.org q]) f hh

/-- `main` on a 404 from the existence check: one comment, no `setFailed`,
no close, immediate return. -/
theorem run_notFound_eq (w : World) (inp : Inputs) (msg : String)
    (hg : w.getRepo inp.org (queryRepoOf inp) = .error (404, msg)) :
    run w inp = ⟨[Event.getRepo inp.org (queryRepoOf inp),
                  commentEvent inp (repoNotFoundBody inp (queryRepoOf inp))],
                 false, false⟩ := by
  unfold run
  rw [hg]
  rfl

/-- `main` when the existence check, the collaborator listing and the team
listing all succeed. -/
theorem run_ok_eq (w : World) (inp : Inputs) (cs : List Collaborator) (ts : List Team)
    (hg : w.getRepo inp.org (queryRepoOf inp) = .ok ())
    (hc : w.listCollaborators inp.org (queryRepoOf inp) = .ok cs)
    (ht : w.listTeams inp.org (queryRepoOf inp) = .ok ts) :
    run w inp = finish w inp (queryRepoOf inp)
      (teamExpansion w inp.org (adminTeamsOf ts) (directAdmins cs))
      ([Event.getRepo inp.org (queryRepoOf inp),
        Event.listCollaborators inp.org (queryRepoOf inp),
        Event.listTeams inp.org (queryRepoOf inp)] ++ teamEvents w inp (adminTeamsOf ts))
      (teamFailed w inp.org (adminTeamsOf ts)) := by
  unfold run afterVerify afterCollab
  simp only [hg, hc, ht]
  rw [teamLoop_eq]
  simp [List.append_assoc]

/-- `main` on a non-404 failure of the existence check: the verification
comment is posted, `setFailed` is called, and the script continues. -/
theorem run_verErr_eq (w : World) (inp : Inputs) (s : Nat) (m : String)
    (hg : w.getRepo inp.org (queryRepoOf inp) = .error (s, m))
    (h404 : (s == 404) = false) :
    run w inp = afterVerify w inp (queryRepoOf inp)
      [Event.getRepo inp.org (queryRepoOf inp),
       commentEvent inp (verificationErrorBody inp (queryRepoOf inp) m)] true := by
  unfold run
  rw [hg]
  simp [h404]

theorem run_okStart_eq (w : World) (inp : Inputs)
    (hg : w.getRepo inp.org (queryRepoOf inp) = .ok ()) :
    run w inp = afterVerify w inp (queryRepoOf inp)
      [Event.getRepo inp.org (queryRepoOf inp)] false := by
  unfold run
  rw [hg]

theorem run_failed_comment (w : World) (inp : Inputs)
    (h : (run w inp).failed = true) : hasComment (run w inp).events := by
  rcases hg : w.getRepo inp.org (queryRepoOf inp) with e | u
  · obtain ⟨s, m⟩ := e
    by_cases h404 : (s == 404) = true
    · have hs : s = 404 := by simpa using h404
      subst hs
      rw [run_notFound_eq w inp m hg] at h
      simp at h
    · have h404f : (s == 404) = false := by simpa using h404
      rw [run_verErr_eq w inp s m hg h404f]
      obtain ⟨ex, hex⟩ := afterVerify_events_ext w inp (queryRepoOf inp)
        [Event.getRepo inp.org (queryRepoOf inp),
         commentEvent inp (verificationErrorBody inp (queryRepoOf inp) m)] true
      rw [hex]
      exact hasComment_append_left ex
        ⟨commentEvent inp (verificationErrorBody inp (queryRepoOf inp) m), by simp, rfl⟩
  · cases u
    rw [run_okStart_eq w inp hg] at h ⊢
    rcases afterVerify_failed_origin w inp (queryRepoOf inp)
      [Event.getRepo inp.org (queryRepoOf inp)] false h with h1 | h2
    · exact absurd h1 (by simp)
    · exact h2

theorem afterVerify_collabErr_eq (w : World) (inp : Inputs) (q : String)
    (evs : List Event) (f : Bool) (m : String)
    (hc : w.listCollaborators inp.org q = .error m) :
    afterVerify w inp q evs f =
      ⟨evs ++ [Event.listCollaborators inp.org q,
               commentEvent inp (collaboratorErrorBody inp m)], true, true⟩ := by
  unfold afterVerify
  rw [hc]

theorem afterVerify_ok_eq (w : World) (inp : Inputs) (q : String)
    (evs : List Event) (f : Bool) (cs : List Collaborator)
    (hc : w.listCollaborators inp.org q = .ok cs) :
    afterVerify w inp q evs f =
      afterCollab w inp q (directAdmins cs)
        (evs ++ [Event.listCollaborators inp.org q]) f := by
  unfold afterVerify
  rw [hc]

theorem afterCollab_teamsErr_eq (w : World) (inp : Inputs) (q : String)
    (a : List String) (evs : List Event) (f : Bool) (m : String)
    (ht : w.listTeams inp.org q = .error m) :
    afterCollab w inp q a evs f =
      ⟨evs ++ [Event.listTeams inp.org q,
               commentEvent inp (teamErrorBody inp m)], true, true⟩ := by
  unfold afterCollab
  rw [ht]

theorem afterCollab_ok_eq (w : World) (inp : Inputs) (q : String)
    (a : List String) (evs : List Event) (f : Bool) (ts : List Team)
    (ht : w.listTeams inp.org q = .ok ts) :
    afterCollab w inp q a evs f =
      teamLoop w inp q (adminTeamsOf ts) a
        (evs ++ [Event.listTeams inp.org q]) f := by
  unfold afterCollab
  rw [ht]

theorem afterCollab_failed_true (w : World) (inp : Inputs) (q : String)
    (a : List String) (evs : List Event) :
    (afterCollab w inp q a evs true).failed = true := by
  cases ht : w.listTeams inp.org q with
  | error m => rw [afterCollab_teamsErr_eq w inp q a evs true m ht]
  | ok ts =>
    rw [afterCollab_ok_eq w inp q a evs true ts ht]
    exact teamLoop_failed_true ..

theorem afterVerify_failed_true (w : World) (inp : Inputs) (q : String)
    (evs : List Event) : (afterVerify w inp q evs true).failed = true := by
  cases hc : w.listCollaborators inp.org q with
  | error m => rw [afterVerify_collabErr_eq w inp q evs true m hc]
  | ok cs =>
    rw [afterVerify_ok_eq w inp q evs true cs hc]
    exact afterCollab_failed_true ..

theorem teamFailed_of_mem (w : World) (org : String) (ts : List Team) (t : Team)
    (hmem : t ∈ ts) (m : String) (herr : w.listTeamMembers org t.slug = .error m) :
    teamFailed w org ts = true := by
  induction ts with
  | nil => cases hmem
  | cons u rest ih =>
    rcases List.mem_cons.mp hmem with rfl | hmem2
    · simp [teamFailed, herr]
    · cases hu : w.listTeamMembers org u.slug with
      | error m2 => simp [teamFailed, hu]
      | ok ms => simp [teamFailed, hu, ih hmem2]

theorem finish_empty_failed (w : World) (inp : Inputs) (q : String)
    (evs : List Event) (f : Bool) : (finish w inp q [] evs f).failed = true := by
  unfold finish
  simp only [List.isEmpty_nil, if_true]
  exact closeStep_failed ..

set_option maxRecDepth 8000 in
/-- Sanity evaluation: a concrete all-success run produces exactly the
expected event trace. -/
theorem run_success_sample :
    run
      ⟨fun _ _ => .ok (), fun _ _ => .ok [⟨"alice", true⟩, ⟨"bob", false⟩],
       fun _ _ => .ok [], fun _ _ => .ok [], fun a => .ok (a ++ "@x")⟩
      ⟨"octocat", "admins target-repo", true, "7", "iorg", "acme", "tracker"⟩
    = ⟨[Event.getRepo "acme" "target-repo",
        Event.listCollaborators "acme" "target-repo",
        Event.listTeams "acme" "target-repo",
        Event.getUser "alice",
        Event.comment "iorg" "tracker" "7"
          (successHeader ⟨"octocat", "admins target-repo", true, "7", "iorg", "acme", "tracker"⟩
            "target-repo" ++ "- alice@x\n"),
        Event.close "iorg" "tracker" "7"], false, false⟩ := by
  decide

set_option maxRecDepth 8000 in
/-- Claim C1, counterexample: on a 404 from the existence check the script
posts the `RepoNotFound` comment and returns without calling
`core.setFailed`, so the process exit status is NOT failed. -/
theorem C1_counterexample :
    (run w404 inp0).failed = false ∧ (run w404 inp0).crashed = false ∧
    (run w404 inp0).events.contains
      (commentEvent inp0 (repoNotFoundBody inp0 "target-repo")) = true := by
  decide

theorem run_errorStep_failed (w : World) (inp : Inputs) (h : errorOutcomeStep w inp) :
    (run w inp).failed = true := by
  rcases h with ⟨s, m, h404, hg⟩ | ⟨hg, m, hc⟩ | ⟨cs, hg, hc, m, ht⟩ |
    ⟨cs, ts, hg, hc, ht, t, htm, m, herr⟩ | ⟨cs, ts, hg, hc, ht, hemp⟩
  · rw [run_verErr_eq w inp s m hg h404]
    exact afterVerify_failed_true ..
  · rw [run_okStart_eq w inp hg,
        afterVerify_collabErr_eq w inp (queryRepoOf inp) _ false m hc]
  · rw [run_okStart_eq w inp hg,
        afterVerify_ok_eq w inp (queryRepoOf inp) _ false cs hc,
        afterCollab_teamsErr_eq w inp (queryRepoOf inp) _ _ false m ht]
  · rw [run_ok_eq w inp cs ts hg hc ht,
        teamFailed_of_mem w inp.org (adminTeamsOf ts) t htm m herr]
    exact finish_failed_true ..
  · rw [run_ok_eq w inp cs ts hg hc ht, hemp]
    exact finish_empty_failed ..

/-- Claim C1 (amended): every terminal outcome other than Success and other
than RepoNotFound — VerificationError, CollaboratorLookupError,
TeamLookupError, TeamMemberLookupError, NoAdminsFound — surfaces a failed
process exit status (`core.setFailed`) in addition to the posted comment. -/
theorem C1_theorem (w : World) (inp : Inputs) (h : errorOutcomeStep w inp) :
    (run w inp).failed = true :=
  run_errorStep_failed w inp h

/-- Witness for C1_theorem: a concrete run whose existence check fails with
status 500 is marked failed. -/
theorem C1_witness : (run wVer inp0).failed = true :=
  C1_theorem wVer inp0 (Or.inl ⟨500, "boom", rfl, rfl⟩)

set_option maxRecDepth 8000 in
/-- Claim C3, code bug: when the existence check fails with a non-404 status
(here 500), the script posts the verification-error comment but does not
return, and the collaborator listing IS invoked afterwards (here it also
fails, after which the script crashes dereferencing the undefined
`members`). The spec requires resolution to halt immediately on either
existence-check failure. -/
theorem C3_code_bug :
    run wVer inp0 =
      ⟨[Event.getRepo "acme" "target-repo",
        commentEvent inp0 (verificationErrorBody inp0 "target-repo" "boom"),
        Event.listCollaborators "acme" "target-repo",
        commentEvent inp0 (collaboratorErrorBody inp0 "down")], true, true⟩ := by
  decide

set_option maxRecDepth 8000 in
/-- Claim C4, counterexample: a failure of the per-login user-profile
(email) lookup terminates the run (uncaught, `crashed = true`) with NO
comment ever posted. -/
theorem C4_counterexample :
    run wEmailFail inp0 =
      ⟨[Event.getRepo "acme" "target-repo",
        Event.listCollaborators "acme" "target-repo",
        Event.listTeams "acme" "target-repo",
        Event.getUser "alice"], false, true⟩ := by
  decide

/-- Claim C4 (amended): for every failure at the existence check, the
collaborator listing, the team listing, or any team-member listing, the run
posts at least one explanatory comment before terminating. (A failure of
the per-login email lookup, by contrast, crashes the run without a
comment.) -/
theorem C4_theorem (w : World) (inp : Inputs) (h : remoteStepFailure w inp) :
    hasComment (run w inp).events := by
  rcases h with ⟨s, m, hg⟩ | h2 | ⟨cs, hg, hc, m, ht⟩ | ⟨cs, ts, hg, hc, ht, hmem⟩
  · by_cases h404 : (s == 404) = true
    · have hs : s = 404 := by simpa using h404
      subst hs
      rw [run_notFound_eq w inp m hg]
      exact ⟨commentEvent inp (repoNotFoundBody inp (queryRepoOf inp)), by simp, rfl⟩
    · have h404f : (s == 404) = false := by simpa using h404
      exact run_failed_comment w inp
        (run_errorStep_failed w inp (Or.inl ⟨s, m, h404f, hg⟩))
  · exact run_failed_comment w inp (run_errorStep_failed w inp (Or.inr (Or.inl h2)))
  · exact run_failed_comment w inp
      (run_errorStep_failed w inp (Or.inr (Or.inr (Or.inl ⟨cs, hg, hc, m, ht⟩))))
  · exact run_failed_comment w inp
      (run_errorStep_failed w inp (Or.inr (Or.inr (Or.inr (Or.inl ⟨cs, ts, hg, hc, ht, hmem⟩)))))

/-- Witness for C4_theorem: the 404 run posts a comment. -/
theorem C4_witness : hasComment (run w404 inp0).events :=
  C4_theorem w404 inp0 (Or.inl ⟨404, "Not Found", rfl⟩)

theorem mention_head (a r : String) : (mention a ++ r).data.head? = some '@' := by
  rw [mention, String.append_assoc, String.data_append]
  rfl

theorem successLit_head (t : String) : (successLit ++ t).data.head? = some 'T' := by
  rw [String.data_append]
  rfl

theorem mention_ne_successLit (a r t : String) : mention a ++ r ≠ successLit ++ t := by
  intro h
  have hh := congrArg (fun s => s.data.head?) h
  simp only [mention_head, successLit_head] at hh
  simp at hh

theorem commentShape_of_body (inp : Inputs) (body : String)
    (h : (∃ t, body = mention inp.actor ++ t) ∨ (∃ t, body = successLit ++ t)) :
    commentShape inp (commentEvent inp body) := by
  intro o r n b he
  rw [commentEvent] at he
  simp only [Event.comment.injEq] at he
  obtain ⟨-, -, -, hb⟩ := he
  subst hb
  exact h

theorem commentShape_of_not (inp : Inputs) (e : Event)
    (h : isCommentEv e = false) : commentShape inp e := by
  intro o r n b he
  rw [he] at h
  simp [isCommentEv] at h

theorem closeStep_shape (inp : Inputs) (evs : List Event) (f : Bool)
    (h : ∀ e ∈ evs, commentShape inp e) :
    ∀ e ∈ (closeStep inp evs f).events, commentShape inp e := by
  unfold closeStep
  split
  · intro e he
    rcases List.mem_append.mp he with h1 | h2
    · exact h e h1
    · rw [List.mem_singleton.mp h2]
      exact commentShape_of_not inp _ rfl
  · exact h

theorem emailLoop_shape (w : World) (inp : Inputs) (l : List String) :
    ∀ (b : String) (evs : List Event),
      (∀ e ∈ evs, commentShape inp e) → (∃ t, b = successLit ++ t) →
      (∀ e ∈ (emailLoop w l b evs).2.1, commentShape inp e) ∧
        (∃ t, (emailLoop w l b evs).1 = successLit ++ t) := by
  induction l with
  | nil =>
    intro b evs hevs hb
    exact ⟨hevs, hb⟩
  | cons a rest ih =>
    intro b evs hevs hb
    have hnext : ∀ e ∈ evs ++ [Event.getUser a], commentShape inp e := by
      intro e he
      rcases List.mem_append.mp he with h1 | h2
      · exact hevs e h1
      · rw [List.mem_singleton.mp h2]
        exact commentShape_of_not inp _ rfl
    cases hm : w.getUserEmail a with
    | error m =>
      simp only [emailLoop, hm]
      exact ⟨hnext, hb⟩
    | ok em =>
      simp only [emailLoop, hm]
      apply ih
      · exact hnext
      · obtain ⟨t, ht⟩ := hb
        refine ⟨t ++ "- " ++ em ++ "\n", ?_⟩
        rw [ht]
        simp only [String.append_assoc]

theorem finish_shape (w : World) (inp : Inputs) (q : String) (a : List String)
    (evs : List Event) (f : Bool) (h : ∀ e ∈ evs, commentShape inp e) :
    ∀ e ∈ (finish w inp q a evs f).events, commentShape inp e := by
  unfold finish
  split
  · apply closeStep_shape
    intro e he
    rcases List.mem_append.mp he with h1 | h2
    · exact h e h1
    · rw [List.mem_singleton.mp h2]
      exact commentShape_of_body inp _ (Or.inl ⟨_, rfl⟩)
  · rcases hml : emailLoop w a (successHeader inp q) evs with ⟨b, evs2, cr⟩
    have hsh := emailLoop_shape w inp a (successHeader inp q) evs h
      ⟨inp.org ++ ("/" ++ (q ++ ":\n\n")), rfl⟩
    rw [hml] at hsh
    simp only at hsh
    obtain ⟨hevs2, hb⟩ := hsh
    cases cr with
    | true => exact hevs2
    | false =>
      apply closeStep_shape
      intro e he
      rcases List.mem_append.mp he with h1 | h2
      · exact hevs2 e h1
      · rw [List.mem_singleton.mp h2]
        exact commentShape_of_body inp _ (Or.inr hb)

theorem teamLoop_shape (w : World) (inp : Inputs) (q : String) (ts : List Team) :
    ∀ (a : List String) (evs : List Event) (f : Bool),
      (∀ e ∈ evs, commentShape inp e) →
      ∀ e ∈ (teamLoop w inp q ts a evs f).events, commentShape inp e := by
  induction ts with
  | nil =>
    intro a evs f h
    exact finish_shape w inp q a evs f h
  | cons t rest ih =>
    intro a evs f h
    cases hm : w.listTeamMembers inp.org t.slug with
    | error m =>
      simp only [teamLoop, hm]
      apply ih
      intro e he
      rcases List.mem_append.mp he with h1 | h2
      · exact h e h1
      · rcases List.mem_cons.mp h2 with rfl | h3
        · exact commentShape_of_not inp _ rfl
        · rw [List.mem_singleton.mp h3]
          exact commentShape_of_body inp _ (Or.inl ⟨_, rfl⟩)
    | ok ms =>
      simp only [teamLoop, hm]
      apply ih
      intro e he
      rcases List.mem_append.mp he with h1 | h2
      · exact h e h1
      · rw [List.mem_singleton.mp h2]
        exact commentShape_of_not inp _ rfl

theorem afterCollab_shape (w : World) (inp : Inputs) (q : String) (a : List String)
    (evs : List Event) (f : Bool) (h : ∀ e ∈ evs, commentShape inp e) :
    ∀ e ∈ (afterCollab w inp q a evs f).events, commentShape inp e := by
  cases ht : w.listTeams inp.org q with
  | error m =>
    rw [afterCollab_teamsErr_eq w inp q a evs f m ht]
    intro e he
    rcases List.mem_append.mp he with h1 | h2
    · exact h e h1
    · rcases List.mem_cons.mp h2 with rfl | h3
      · exact commentShape_of_not inp _ rfl
      · rw [List.mem_singleton.mp h3]
        exact commentShape_of_body inp _ (Or.inl ⟨_, rfl⟩)
  | ok ts =>
    rw [afterCollab_ok_eq w inp q a evs f ts ht]
    apply teamLoop_shape
    intro e he
    rcases List.mem_append.mp he with h1 | h2
    · exact h e h1
    · rw [List.mem_singleton.mp h2]
      exact commentShape_of_not inp _ rfl

theorem afterVerify_shape (w : World) (inp : Inputs) (q : String)
    (evs : List Event) (f : Bool) (h : ∀ e ∈ evs, commentShape inp e) :
    ∀ e ∈ (afterVerify w inp q evs f).events, commentShape inp e := by
  cases hc : w.listCollaborators inp.org q with
  | error m =>
    rw [afterVerify_collabErr_eq w inp q evs f m hc]
    intro e he
    rcases List.mem_append.mp he with h1 | h2
    · exact h e h1
    · rcases List.mem_cons.mp h2 with rfl | h3
      · exact commentShape_of_not inp _ rfl
      · rw [List.mem_singleton.mp h3]
        exact commentShape_of_body inp _ (Or.inl ⟨_, rfl⟩)
  | ok cs =>
    rw [afterVerify_ok_eq w inp q evs f cs hc]
    apply afterCollab_shape
    intro e he
    rcases List.mem_append.mp he with h1 | h2
    · exact h e h1
    · rw [List.mem_singleton.mp h2]
      exact commentShape_of_not inp _ rfl

theorem run_shape (w : World) (inp : Inputs) :
    ∀ e ∈ (run w inp).events, commentShape inp e := by
  rcases hg : w.getRepo inp.org (queryRepoOf inp) with e | u
  · obtain ⟨s, m⟩ := e
    by_cases h404 : (s == 404) = true
    · have hs : s = 404 := by simpa using h404
      subst hs
      rw [run_notFound_eq w inp m hg]
      intro e he
      rcases List.mem_cons.mp he with rfl | h2
      · exact commentShape_of_not inp _ rfl
      · rw [List.mem_singleton.mp h2]
        exact commentShape_of_body inp _ (Or.inl ⟨_, rfl⟩)
    · have h404f : (s == 404) = false := by simpa using h404
      rw [run_verErr_eq w inp s m hg h404f]
      apply afterVerify_shape
      intro e he
      rcases List.mem_cons.mp he with rfl | h2
      · exact commentShape_of_not inp _ rfl
      · rw [List.mem_singleton.mp h2]
        exact commentShape_of_body inp _ (Or.inl ⟨_, rfl⟩)
  · cases u
    rw [run_okStart_eq w inp hg]
    apply afterVerify_shape
    intro e he
    rw [List.mem_singleton.mp he]
    exact commentShape_of_not inp _ rfl

set_option maxRecDepth 8000 in
/-- Claim C2, counterexample: the success comment body is posted but is NOT
prefixed with an `@actor` mention (it begins with the fixed success text
instead). -/
theorem C2_counterexample :
    (run wSuccess inp0).events.contains
      (commentEvent inp0 (successHeader inp0 "target-repo" ++ "- alice@x\n")) = true
    ∧ ¬ ∃ t, successHeader inp0 "target-repo" ++ "- alice@x\n" = mention inp0.actor ++ t := by
  constructor
  · decide
  · rintro ⟨t, ht⟩
    have h2 : (successHeader inp0 "target-repo" ++ "- alice@x\n").data.head? = some 'T' := by
      rw [successHeader, String.append_assoc]
      exact successLit_head _
    rw [ht, mention_head] at h2
    simp at h2

/-- Claim C2 (amended): every comment body rendered for a non-Success
variant is prefixed with an `@actor` mention; the Success comment instead
begins with the fixed success text. -/
theorem C2_theorem (w : World) (inp : Inputs) :
    ∀ e ∈ (run w inp).events, ∀ o r n b, e = Event.comment o r n b →
      (∃ t, b = mention inp.actor ++ t) ∨ (∃ t, b = successLit ++ t) :=
  fun e he o r n b heq => run_shape w inp e he o r n b heq

set_option maxRecDepth 8000 in
/-- Witness for C2_theorem: the RepoNotFound comment of a concrete 404 run
is mention-prefixed. -/
theorem C2_witness :
    (∃ t, repoNotFoundBody inp0 "target-repo" = mention inp0.actor ++ t) ∨
    (∃ t, repoNotFoundBody inp0 "target-repo" = successLit ++ t) :=
  C2_theorem w404 inp0 (commentEvent inp0 (repoNotFoundBody inp0 "target-repo"))
    (by decide) inp0.issueOrg inp0.repo inp0.issueNumber
    (repoNotFoundBody inp0 "target-repo") rfl

theorem addNew_nodup (acc : List String) (m : String) (h : acc.Nodup) :
    (addNew acc m).Nodup := by
  unfold addNew
  split
  · exact h
  · rename_i hc
    have hm : m ∉ acc := by simpa using hc
    simp [List.nodup_append, h, hm]

theorem addMembers_nodup (ms : List String) :
    ∀ acc : List String, acc.Nodup → (addMembers acc ms).Nodup := by
  induction ms with
  | nil => intro acc h; exact h
  | cons m rest ih =>
    intro acc h
    simp only [addMembers, List.foldl_cons]
    exact ih (addNew acc m) (addNew_nodup acc m h)

theorem teamExpansion_nodup (w : World) (org : String) (ts : List Team) :
    ∀ acc : List String, acc.Nodup → (teamExpansion w org ts acc).Nodup := by
  induction ts with
  | nil => intro acc h; exact h
  | cons t rest ih =>
    intro acc h
    simp only [teamExpansion, List.foldl_cons]
    cases hm : w.listTeamMembers org t.slug with
    | error m =>
      simp only [hm]
      exact ih acc h
    | ok ms =>
      simp only [hm]
      exact ih (addMembers acc ms) (addMembers_nodup ms acc h)

set_option maxRecDepth 8000 in
/-- Claim C5, counterexample: a duplicated admin login in the direct
collaborator input survives into the final admin set (only team expansion
deduplicates), and the duplicate is visible in the success comment. -/
theorem C5_counterexample :
    teamExpansion wDup "acme" (adminTeamsOf [])
        (directAdmins [⟨"alice", true⟩, ⟨"alice", true⟩]) = ["alice", "alice"]
    ∧ ¬ (teamExpansion wDup "acme" (adminTeamsOf [])
        (directAdmins [⟨"alice", true⟩, ⟨"alice", true⟩])).Nodup
    ∧ (run wDup inp0).events.contains
        (commentEvent inp0 (successHeader inp0 "target-repo" ++ "- alice@x\n- alice@x\n"))
        = true := by
  refine ⟨rfl, by decide, by decide⟩

/-- Claim C5 (amended): whenever the direct-collaborator admin logins are
pairwise distinct, the final admin set contains no duplicate login,
regardless of how many teams grant the same user access. -/
theorem C5_theorem (w : World) (org : String) (ts : List Team) (cs : List Collaborator)
    (h : (directAdmins cs).Nodup) :
    (teamExpansion w org (adminTeamsOf ts) (directAdmins cs)).Nodup :=
  teamExpansion_nodup w org (adminTeamsOf ts) (directAdmins cs) h

set_option maxRecDepth 8000 in
/-- Witness for C5_theorem: the concrete admin set `[alice, carol]` built
from distinct direct admins and overlapping team membership is
duplicate-free. -/
theorem C5_witness :
    (teamExpansion wTeams "acme"
      (adminTeamsOf [⟨"core", "Core", "admin"⟩, ⟨"docs", "Docs", "pull"⟩])
      (directAdmins [⟨"alice", true⟩, ⟨"bob", false⟩])).Nodup :=
  C5_theorem wTeams "acme" [⟨"core", "Core", "admin"⟩, ⟨"docs", "Docs", "pull"⟩]
    [⟨"alice", true⟩, ⟨"bob", false⟩] (by decide)

theorem addMembers_split (ms : List String) :
    ∀ acc : List String, ∃ added, addMembers acc ms = acc ++ added ∧
      added.Sublist ms ∧ ∀ x ∈ added, x ∉ acc := by
  induction ms with
  | nil =>
    intro acc
    exact ⟨[], by simp [addMembers], List.nil_sublist _, by simp⟩
  | cons m rest ih =>
    intro acc
    simp only [addMembers, List.foldl_cons]
    by_cases hc : acc.contains m
    · obtain ⟨added, h1, h2, h3⟩ := ih acc
      refine ⟨added, ?_, h2.cons m, h3⟩
      have hm2 : m ∈ acc := by simpa using hc
      simpa [addMembers, addNew, hm2] using h1
    · have hm : m ∉ acc := by simpa using hc
      obtain ⟨added, h1, h2, h3⟩ := ih (acc ++ [m])
      refine ⟨m :: added, ?_, h2.cons₂ m, ?_⟩
      · have : addNew acc m = acc ++ [m] := by simp [addNew, hm]
        rw [show List.foldl addNew (addNew acc m) rest = addMembers (addNew acc m) rest from rfl,
            this, h1]
        simp
      · intro x hx
        rcases List.mem_cons.mp hx with rfl | hx2
        · exact hm
        · intro hxa
          exact h3 x hx2 (List.mem_append_left [m] hxa)

theorem teamExpansion_split (w : World) (org : String) (ts : List Team) :
    ∀ acc : List String, ∃ added, teamExpansion w org ts acc = acc ++ added ∧
      added.Sublist (memberConcat w org ts) ∧ ∀ x ∈ added, x ∉ acc := by
  induction ts with
  | nil =>
    intro acc
    exact ⟨[], by simp [teamExpansion], by simp [memberConcat], by simp⟩
  | cons t rest ih =>
    intro acc
    cases hm : w.listTeamMembers org t.slug with
    | error m =>
      obtain ⟨added, h1, h2, h3⟩ := ih acc
      refine ⟨added, ?_, ?_, h3⟩
      · simpa [teamExpansion, List.foldl_cons, hm] using h1
      · simpa [memberConcat, hm] using h2
    | ok ms =>
      obtain ⟨a1, e1, s1, n1⟩ := addMembers_split ms acc
      obtain ⟨a2, e2, s2, n2⟩ := ih (acc ++ a1)
      refine ⟨a1 ++ a2, ?_, ?_, ?_⟩
      · have : teamExpansion w org (t :: rest) acc = teamExpansion w org rest (addMembers acc ms) := by
          simp [teamExpansion, List.foldl_cons, hm]
        rw [this, e1, e2]
        simp
      · simp only [memberConcat, hm]
        exact s1.append s2
      · intro x hx
        rcases List.mem_append.mp hx with hx1 | hx2
        · exact n1 x hx1
        · intro hxa
          exact n2 x hx2 (List.mem_append_left a1 hxa)

theorem addNew_mem_self (acc : List String) (m : String) : m ∈ addNew acc m := by
  unfold addNew
  split
  · rename_i hc
    simpa using hc
  · simp

theorem addNew_mem_mono (acc : List String) (m x : String) (h : x ∈ acc) :
    x ∈ addNew acc m := by
  unfold addNew
  split
  · exact h
  · exact List.mem_append_left [m] h

theorem addMembers_mem_mono (ms : List String) :
    ∀ (acc : List String) (x : String), x ∈ acc → x ∈ addMembers acc ms := by
  induction ms with
  | nil => intro acc x h; exact h
  | cons m rest ih =>
    intro acc x h
    simp only [addMembers, List.foldl_cons]
    exact ih (addNew acc m) x (addNew_mem_mono acc m x h)

theorem addMembers_mem_of (ms : List String) :
    ∀ (acc : List String) (u : String), u ∈ ms → u ∈ addMembers acc ms := by
  induction ms with
  | nil => intro acc u h; cases h
  | cons m rest ih =>
    intro acc u h
    simp only [addMembers, List.foldl_cons]
    rcases List.mem_cons.mp h with rfl | h2
    · exact addMembers_mem_mono rest (addNew acc u) u (addNew_mem_self acc u)
    · exact ih (addNew acc m) u h2

theorem teamExpansion_mem_mono (w : World) (org : String) (ts : List Team) :
    ∀ (acc : List String) (x : String), x ∈ acc → x ∈ teamExpansion w org ts acc := by
  intro acc x h
  obtain ⟨added, h1, -, -⟩ := teamExpansion_split w org ts acc
  rw [h1]
  exact List.mem_append_left added h

theorem teamExpansion_mem_of_team (w : World) (org : String) (ts : List Team)
    (U : Team) (us : List String) (u : String) (hU : U ∈ ts)
    (hus : w.listTeamMembers org U.slug = .ok us) (hu : u ∈ us) :
    ∀ acc : List String, u ∈ teamExpansion w org ts acc := by
  induction ts with
  | nil => cases hU
  | cons t rest ih =>
    intro acc
    rcases List.mem_cons.mp hU with rfl | hU2
    · rw [show teamExpansion w org (U :: rest) acc
          = teamExpansion w org rest (addMembers acc us) by
            simp [teamExpansion, List.foldl_cons, hus]]
      exact teamExpansion_mem_mono w org rest _ u (addMembers_mem_of us acc u hu)
    · cases hm : w.listTeamMembers org t.slug with
      | error m =>
        rw [show teamExpansion w org (t :: rest) acc = teamExpansion w org rest acc by
              simp [teamExpansion, List.foldl_cons, hm]]
        exact ih hU2 acc
      | ok ms =>
        rw [show teamExpansion w org (t :: rest) acc
              = teamExpansion w org rest (addMembers acc ms) by
              simp [teamExpansion, List.foldl_cons, hm]]
        exact ih hU2 (addMembers acc ms)

theorem emailLoop_ok_eq (w : World) (e : String → String) (l : List String) :
    ∀ (b : String) (evs : List Event),
      (∀ a ∈ l, w.getUserEmail a = .ok (e a)) →
      emailLoop w l b evs = (b ++ emailLines e l, evs ++ l.map Event.getUser, false) := by
  induction l with
  | nil =>
    intro b evs _
    simp [emailLoop, emailLines]
  | cons a rest ih =>
    intro b evs he
    have ha : w.getUserEmail a = .ok (e a) := he a (List.mem_cons_self a rest)
    simp only [emailLoop, ha]
    rw [ih (b ++ "- " ++ e a ++ "\n") (evs ++ [Event.getUser a])
          (fun x hx => he x (List.mem_cons_of_mem a hx))]
    simp [emailLines, String.append_assoc, List.append_assoc]

theorem finish_success_comment (w : World) (inp : Inputs) (q : String)
    (admins : List String) (evs : List Event) (f : Bool) (e : String → String)
    (hne : admins ≠ [])
    (he : ∀ a ∈ admins, w.getUserEmail a = .ok (e a)) :
    commentEvent inp (successHeader inp q ++ emailLines e admins)
      ∈ (finish w inp q admins evs f).events := by
  unfold finish
  have hemp : admins.isEmpty = false := by
    cases admins with
    | nil => exact absurd rfl hne
    | cons a rest => rfl
  rw [if_neg (by simp [hemp]), emailLoop_ok_eq w e admins (successHeader inp q) evs he]
  show commentEvent inp (successHeader inp q ++ emailLines e admins)
      ∈ (closeStep inp ((evs ++ admins.map Event.getUser) ++
          [commentEvent inp (successHeader inp q ++ emailLines e admins)]) f).events
  unfold closeStep
  split
  · simp
  · simp

/-- Claim C6: the final admin set is the direct-admin list followed by the
logins newly seen during team expansion; the newly added block is an
order-preserving selection (sublist) of the team member lists concatenated
in team-listing order and is disjoint from the direct admins; and the
success comment lists one `- email` line per login in exactly this order. -/
theorem C6_theorem (w : World) (inp : Inputs) (cs : List Collaborator) (ts : List Team)
    (e : String → String)
    (hg : w.getRepo inp.org (queryRepoOf inp) = .ok ())
    (hc : w.listCollaborators inp.org (queryRepoOf inp) = .ok cs)
    (ht : w.listTeams inp.org (queryRepoOf inp) = .ok ts)
    (hne : teamExpansion w inp.org (adminTeamsOf ts) (directAdmins cs) ≠ [])
    (he : ∀ a ∈ teamExpansion w inp.org (adminTeamsOf ts) (directAdmins cs),
      w.getUserEmail a = .ok (e a)) :
    ∃ added,
      teamExpansion w inp.org (adminTeamsOf ts) (directAdmins cs) = directAdmins cs ++ added
      ∧ added.Sublist (memberConcat w inp.org (adminTeamsOf ts))
      ∧ (∀ x ∈ added, x ∉ directAdmins cs)
      ∧ commentEvent inp (successHeader inp (queryRepoOf inp) ++
          emailLines e (teamExpansion w inp.org (adminTeamsOf ts) (directAdmins cs)))
          ∈ (run w inp).events := by
  obtain ⟨added, h1, h2, h3⟩ := teamExpansion_split w inp.org (adminTeamsOf ts) (directAdmins cs)
  refine ⟨added, h1, h2, h3, ?_⟩
  rw [run_ok_eq w inp cs ts hg hc ht]
  exact finish_success_comment w inp (queryRepoOf inp) _ _ _ e hne he

set_option maxRecDepth 8000 in
/-- Witness for C6_theorem: with direct admins `[alice]` (bob is not admin)
and admin team `core` with members `[alice, carol]`, the final set is
`[alice, carol]` and the success comment lists the two emails in order. -/
theorem C6_witness :
    ∃ added,
      teamExpansion wTeams inp0.org (adminTeamsOf tsTeams) (directAdmins csTeams)
        = directAdmins csTeams ++ added
      ∧ added.Sublist (memberConcat wTeams inp0.org (adminTeamsOf tsTeams))
      ∧ (∀ x ∈ added, x ∉ directAdmins csTeams)
      ∧ commentEvent inp0 (successHeader inp0 (queryRepoOf inp0) ++
          emailLines (fun a => a ++ "@x")
            (teamExpansion wTeams inp0.org (adminTeamsOf tsTeams) (directAdmins csTeams)))
          ∈ (run wTeams inp0).events :=
  C6_theorem wTeams inp0 csTeams tsTeams (fun a => a ++ "@x") rfl rfl rfl
    (by decide) (by decide)

theorem countEvent_append (c : Event) (l1 l2 : List Event) :
    countEvent c (l1 ++ l2) = countEvent c l1 + countEvent c l2 := by
  induction l1 with
  | nil => simp [countEvent]
  | cons e rest ih => simp [countEvent, ih, Nat.add_assoc]

theorem ne_comment_of_not {e c : Event} (he : isCommentEv e = false)
    (hc : isCommentEv c = true) : e ≠ c := by
  intro h
  rw [h, hc] at he
  cases he

theorem countEvent_singleton_ne {c e : Event} (h : e ≠ c) : countEvent c [e] = 0 := by
  simp [countEvent, h]

theorem countEvent_getUser (c : Event) (hc : isCommentEv c = true) (a : String) :
    countEvent c [Event.getUser a] = 0 :=
  countEvent_singleton_ne (ne_comment_of_not rfl hc)

theorem countEvent_close (c : Event) (hc : isCommentEv c = true) (o r n : String) :
    countEvent c [Event.close o r n] = 0 :=
  countEvent_singleton_ne (ne_comment_of_not rfl hc)

theorem countEvent_ltm (c : Event) (hc : isCommentEv c = true) (o s : String) :
    countEvent c [Event.listTeamMembers o s] = 0 :=
  countEvent_singleton_ne (ne_comment_of_not rfl hc)

theorem emailLoop_count (w : World) (c : Event) (hc : isCommentEv c = true)
    (l : List String) : ∀ (b : String) (evs : List Event),
    countEvent c (emailLoop w l b evs).2.1 = countEvent c evs := by
  induction l with
  | nil => intro b evs; rfl
  | cons a rest ih =>
    intro b evs
    cases hm : w.getUserEmail a with
    | error m =>
      simp only [emailLoop, hm]
      rw [countEvent_append, countEvent_getUser c hc a]
      exact Nat.add_zero _
    | ok em =>
      simp only [emailLoop, hm]
      rw [ih, countEvent_append, countEvent_getUser c hc a]
      exact Nat.add_zero _

theorem closeStep_count (inp : Inputs) (evs : List Event) (f : Bool)
    (c : Event) (hc : isCommentEv c = true) :
    countEvent c (closeStep inp evs f).events = countEvent c evs := by
  unfold closeStep
  split
  · rw [countEvent_append, countEvent_close c hc]
    exact Nat.add_zero _
  · rfl

theorem emailLoop_body_prefix (w : World) (l : List String) :
    ∀ (b : String) (evs : List Event), (∃ t, b = successLit ++ t) →
    ∃ t, (emailLoop w l b evs).1 = successLit ++ t := by
  induction l with
  | nil => intro b evs hb; exact hb
  | cons a rest ih =>
    intro b evs hb
    cases hm : w.getUserEmail a with
    | error m =>
      simp only [emailLoop, hm]
      exact hb
    | ok em =>
      simp only [emailLoop, hm]
      apply ih
      obtain ⟨t, ht⟩ := hb
      refine ⟨t ++ "- " ++ em ++ "\n", ?_⟩
      rw [ht]
      simp only [String.append_assoc]

/-- A mention-prefixed comment is only ever posted before `finish` runs:
`finish` adds at most the success comment (successLit-prefixed) and the
close event, never a mention-prefixed comment, provided the admin set is
nonempty. -/
theorem finish_count_mention (w : World) (inp : Inputs) (q : String)
    (admins : List String) (evs : List Event) (f : Bool) (r : String)
    (hne : admins ≠ []) :
    countEvent (commentEvent inp (mention inp.actor ++ r))
        (finish w inp q admins evs f).events
      = countEvent (commentEvent inp (mention inp.actor ++ r)) evs := by
  unfold finish
  have hemp : admins.isEmpty = false := by
    cases admins with
    | nil => exact absurd rfl hne
    | cons a rest => rfl
  rw [if_neg (by simp [hemp])]
  rcases hml : emailLoop w admins (successHeader inp q) evs with ⟨b, evs2, cr⟩
  have hcnt := emailLoop_count w (commentEvent inp (mention inp.actor ++ r)) rfl
    admins (successHeader inp q) evs
  rw [hml] at hcnt
  simp only at hcnt
  have hb : ∃ t, b = successLit ++ t := by
    have := emailLoop_body_prefix w admins (successHeader inp q) evs
      ⟨inp.org ++ ("/" ++ (q ++ ":\n\n")), rfl⟩
    rw [hml] at this
    exact this
  cases cr with
  | true => exact hcnt
  | false =>
    obtain ⟨t, ht⟩ := hb
    have hne2 : commentEvent inp b ≠ commentEvent inp (mention inp.actor ++ r) := by
      intro hEq
      rw [commentEvent, commentEvent] at hEq
      simp only [Event.comment.injEq] at hEq
      obtain ⟨-, -, -, hbb⟩ := hEq
      rw [ht] at hbb
      exact mention_ne_successLit inp.actor r t hbb.symm
    show countEvent (commentEvent inp (mention inp.actor ++ r))
        (closeStep inp (evs2 ++ [commentEvent inp b]) f).events
      = countEvent (commentEvent inp (mention inp.actor ++ r)) evs
    rw [closeStep_count inp _ f (commentEvent inp (mention inp.actor ++ r)) rfl,
        countEvent_append, hcnt, countEvent_singleton_ne hne2]
    exact Nat.add_zero _

theorem teamEvents_append (w : World) (inp : Inputs) (x y : List Team) :
    teamEvents w inp (x ++ y) = teamEvents w inp x ++ teamEvents w inp y := by
  induction x with
  | nil => simp [teamEvents]
  | cons t rest ih => simp [teamEvents, ih, List.append_assoc]

theorem teamEvents_ok_count (w : World) (inp : Inputs) (c : Event)
    (hc : isCommentEv c = true) (l : List Team)
    (hok : ∀ t ∈ l, isOkB (w.listTeamMembers inp.org t.slug) = true) :
    countEvent c (teamEvents w inp l) = 0 := by
  induction l with
  | nil => rfl
  | cons t rest ih =>
    cases hm : w.listTeamMembers inp.org t.slug with
    | error m =>
      have := hok t (List.mem_cons_self t rest)
      rw [hm] at this
      cases this
    | ok ms =>
      simp only [teamEvents, hm]
      rw [countEvent_append, countEvent_ltm c hc,
          ih (fun u hu => hok u (List.mem_cons_of_mem t hu))]

theorem finish_count_body (w : World) (inp : Inputs) (q : String)
    (admins : List String) (evs : List Event) (f : Bool) (bodyc r : String)
    (hbody : bodyc = mention inp.actor ++ r) (hne : admins ≠ []) :
    countEvent (commentEvent inp bodyc) (finish w inp q admins evs f).events
      = countEvent (commentEvent inp bodyc) evs := by
  rw [hbody]
  exact finish_count_mention w inp q admins evs f r hne

theorem teamEvents_count_one (w : World) (inp : Inputs) (T : Team) (em : String)
    (l1 l2 : List Team)
    (hTerr : w.listTeamMembers inp.org T.slug = .error em)
    (hok1 : ∀ t ∈ l1, isOkB (w.listTeamMembers inp.org t.slug) = true)
    (hok2 : ∀ t ∈ l2, isOkB (w.listTeamMembers inp.org t.slug) = true) :
    countEvent (commentEvent inp (memberErrorBody inp T.name em))
      (teamEvents w inp (l1 ++ T :: l2)) = 1 := by
  rw [teamEvents_append, countEvent_append,
      teamEvents_ok_count w inp (commentEvent inp (memberErrorBody inp T.name em)) rfl l1 hok1]
  simp only [teamEvents, hTerr]
  rw [countEvent_append,
      teamEvents_ok_count w inp (commentEvent inp (memberErrorBody inp T.name em)) rfl l2 hok2]
  simp [countEvent, commentEvent]

/-- Claim C7: with T the unique failing admin team (member lookup error
`em`), T occurring once in the admin-team list, and U an admin team whose
lookup succeeds with a nonempty member list, the run posts exactly one
comment naming T and every member of U still reaches the final admin set. -/
theorem C7_theorem (w : World) (inp : Inputs) (cs : List Collaborator) (ts : List Team)
    (T U : Team) (em : String) (us : List String) (l1 l2 : List Team)
    (hg : w.getRepo inp.org (queryRepoOf inp) = .ok ())
    (hc : w.listCollaborators inp.org (queryRepoOf inp) = .ok cs)
    (ht : w.listTeams inp.org (queryRepoOf inp) = .ok ts)
    (hsplit : adminTeamsOf ts = l1 ++ T :: l2)
    (honly : ∀ t ∈ adminTeamsOf ts, t ≠ T → isOkB (w.listTeamMembers inp.org t.slug) = true)
    (hT1 : T ∉ l1) (hT2 : T ∉ l2)
    (hTerr : w.listTeamMembers inp.org T.slug = .error em)
    (hU : U ∈ adminTeamsOf ts) (hUok : w.listTeamMembers inp.org U.slug = .ok us)
    (hus : us ≠ []) :
    countEvent (commentEvent inp (memberErrorBody inp T.name em)) (run w inp).events = 1
    ∧ ∀ u ∈ us, u ∈ teamExpansion w inp.org (adminTeamsOf ts) (directAdmins cs) := by
  have hmem : ∀ u ∈ us, u ∈ teamExpansion w inp.org (adminTeamsOf ts) (directAdmins cs) :=
    fun u hu => teamExpansion_mem_of_team w inp.org (adminTeamsOf ts) U us u hU hUok hu _
  refine ⟨?_, hmem⟩
  obtain ⟨u0, hu0⟩ := List.exists_mem_of_ne_nil us hus
  have hfne : teamExpansion w inp.org (adminTeamsOf ts) (directAdmins cs) ≠ [] :=
    List.ne_nil_of_mem (hmem u0 hu0)
  have hok1 : ∀ t ∈ l1, isOkB (w.listTeamMembers inp.org t.slug) = true := by
    intro t htl
    refine honly t ?_ ?_
    · rw [hsplit]
      exact List.mem_append_left _ htl
    · intro hEq
      rw [hEq] at htl
      exact hT1 htl
  have hok2 : ∀ t ∈ l2, isOkB (w.listTeamMembers inp.org t.slug) = true := by
    intro t htl
    refine honly t ?_ ?_
    · rw [hsplit]
      exact List.mem_append_right _ (List.mem_cons_of_mem T htl)
    · intro hEq
      rw [hEq] at htl
      exact hT2 htl
  rw [run_ok_eq w inp cs ts hg hc ht]
  rw [finish_count_body w inp (queryRepoOf inp) _ _ _ (memberErrorBody inp T.name em)
      ("There was an error retrieving the members for " ++ (T.name ++ (":\n\n" ++ em)))
      rfl hfne]
  rw [countEvent_append, hsplit,
      teamEvents_count_one w inp T em l1 l2 hTerr hok1 hok2]
  simp [countEvent, commentEvent]

set_option maxRecDepth 8000 in
/-- Witness for C7_theorem: in the concrete two-team run, exactly one
comment names TeamT and carol (from TeamU) is in the final admin set. -/
theorem C7_witness :
    countEvent (commentEvent inp0 (memberErrorBody inp0 "TeamT" "boom"))
      (run wC7 inp0).events = 1
    ∧ ∀ u ∈ ["carol"], u ∈ teamExpansion wC7 inp0.org (adminTeamsOf tsC7) (directAdmins []) :=
  C7_theorem wC7 inp0 [] tsC7 ⟨"t", "TeamT", "admin"⟩ ⟨"u", "TeamU", "admin"⟩ "boom"
    ["carol"] [] [⟨"u", "TeamU", "admin"⟩] rfl rfl rfl rfl (by decide) (by decide)
    (by decide) rfl (by decide) rfl (by decide)

theorem finish_empty_eq (w : World) (inp : Inputs) (q : String)
    (evs : List Event) (f : Bool) :
    finish w inp q [] evs f
      = closeStep inp (evs ++ [commentEvent inp (noAdminsBody inp q)]) true := rfl

/-- Claim C8: if the merged admin set is empty after collaborator and team
expansion, the NoAdminsFound comment is posted, the run is marked failed,
and when issue closure is requested the tracking issue is still closed. -/
theorem C8_theorem (w : World) (inp : Inputs) (cs : List Collaborator) (ts : List Team)
    (hg : w.getRepo inp.org (queryRepoOf inp) = .ok ())
    (hc : w.listCollaborators inp.org (queryRepoOf inp) = .ok cs)
    (ht : w.listTeams inp.org (queryRepoOf inp) = .ok ts)
    (hempty : teamExpansion w inp.org (adminTeamsOf ts) (directAdmins cs) = []) :
    commentEvent inp (noAdminsBody inp (queryRepoOf inp)) ∈ (run w inp).events
    ∧ (run w inp).failed = true
    ∧ (inp.closeIssue = true →
        Event.close inp.issueOrg inp.repo inp.issueNumber ∈ (run w inp).events) := by
  rw [run_ok_eq w inp cs ts hg hc ht, hempty, finish_empty_eq]
  refine ⟨?_, closeStep_failed .., ?_⟩
  · unfold closeStep
    split
    · simp
    · simp
  · intro hclose
    unfold closeStep
    rw [if_pos hclose]
    simp

set_option maxRecDepth 8000 in
/-- Witness for C8_theorem: the concrete empty-set run posts the
NoAdminsFound comment, is marked failed, and closes the issue. -/
theorem C8_witness :
    commentEvent inp0 (noAdminsBody inp0 (queryRepoOf inp0)) ∈ (run wEmpty inp0).events
    ∧ (run wEmpty inp0).failed = true
    ∧ (inp0.closeIssue = true →
        Event.close inp0.issueOrg inp0.repo inp0.issueNumber ∈ (run wEmpty inp0).events) :=
  C8_theorem wEmpty inp0 [⟨"bob", false⟩] [] rfl rfl rfl rfl

theorem closeFree_append {l1 l2 : List Event} (h1 : closeFree l1) (h2 : closeFree l2) :
    closeFree (l1 ++ l2) := by
  intro e he
  rcases List.mem_append.mp he with h | h
  · exact h1 e h
  · exact h2 e h

theorem closeStep_closeLast (inp : Inputs) (evs : List Event) (f : Bool)
    (h : closeFree evs) : closeLast inp (closeStep inp evs f).events := by
  unfold closeStep
  split
  · exact Or.inr ⟨evs, rfl, h⟩
  · exact Or.inl h

theorem emailLoop_closeFree (w : World) (l : List String) :
    ∀ (b : String) (evs : List Event), closeFree evs →
      closeFree (emailLoop w l b evs).2.1 := by
  induction l with
  | nil => intro b evs h; exact h
  | cons a rest ih =>
    intro b evs h
    have h2 : closeFree (evs ++ [Event.getUser a]) :=
      closeFree_append h (by intro e he; rw [List.mem_singleton.mp he]; rfl)
    cases hm : w.getUserEmail a with
    | error m =>
      simp only [emailLoop, hm]
      exact h2
    | ok em =>
      simp only [emailLoop, hm]
      exact ih _ _ h2

theorem finish_closeLast (w : World) (inp : Inputs) (q : String)
    (a : List String) (evs : List Event) (f : Bool) (h : closeFree evs) :
    closeLast inp (finish w inp q a evs f).events := by
  unfold finish
  split
  · exact closeStep_closeLast inp _ true
      (closeFree_append h (by intro e he; rw [List.mem_singleton.mp he]; rfl))
  · rcases hml : emailLoop w a (successHeader inp q) evs with ⟨b, evs2, cr⟩
    have h2 : closeFree evs2 := by
      have := emailLoop_closeFree w a (successHeader inp q) evs h
      rw [hml] at this
      exact this
    cases cr with
    | true => exact Or.inl h2
    | false =>
      exact closeStep_closeLast inp _ f
        (closeFree_append h2 (by intro e he; rw [List.mem_singleton.mp he]; rfl))

theorem teamLoop_closeLast (w : World) (inp : Inputs) (q : String) (ts : List Team) :
    ∀ (a : List String) (evs : List Event) (f : Bool), closeFree evs →
      closeLast inp (teamLoop w inp q ts a evs f).events := by
  induction ts with
  | nil => intro a evs f h; exact finish_closeLast w inp q a evs f h
  | cons t rest ih =>
    intro a evs f h
    cases hm : w.listTeamMembers inp.org t.slug with
    | error m =>
      simp only [teamLoop, hm]
      apply ih
      refine closeFree_append h ?_
      intro e he
      rcases List.mem_cons.mp he with rfl | h3
      · rfl
      · rw [List.mem_singleton.mp h3]
        rfl
    | ok ms =>
      simp only [teamLoop, hm]
      apply ih
      exact closeFree_append h (by intro e he; rw [List.mem_singleton.mp he]; rfl)

theorem afterCollab_closeLast (w : World) (inp : Inputs) (q : String)
    (a : List String) (evs : List Event) (f : Bool) (h : closeFree evs) :
    closeLast inp (afterCollab w inp q a evs f).events := by
  cases ht : w.listTeams inp.org q with
  | error m =>
    rw [afterCollab_teamsErr_eq w inp q a evs f m ht]
    left
    refine closeFree_append h ?_
    intro e he
    rcases List.mem_cons.mp he with rfl | h3
    · rfl
    · rw [List.mem_singleton.mp h3]
      rfl
  | ok ts =>
    rw [afterCollab_ok_eq w inp q a evs f ts ht]
    apply teamLoop_closeLast
    exact closeFree_append h (by intro e he; rw [List.mem_singleton.mp he]; rfl)

theorem afterVerify_closeLast (w : World) (inp : Inputs) (q : String)
    (evs : List Event) (f : Bool) (h : closeFree evs) :
    closeLast inp (afterVerify w inp q evs f).events := by
  cases hc : w.listCollaborators inp.org q with
  | error m =>
    rw [afterVerify_collabErr_eq w inp q evs f m hc]
    left
    refine closeFree_append h ?_
    intro e he
    rcases List.mem_cons.mp he with rfl | h3
    · rfl
    · rw [List.mem_singleton.mp h3]
      rfl
  | ok cs =>
    rw [afterVerify_ok_eq w inp q evs f cs hc]
    apply afterCollab_closeLast
    exact closeFree_append h (by intro e he; rw [List.mem_singleton.mp he]; rfl)

theorem run_closeLast (w : World) (inp : Inputs) : closeLast inp (run w inp).events := by
  rcases hg : w.getRepo inp.org (queryRepoOf inp) with e | u
  · obtain ⟨s, m⟩ := e
    by_cases h404 : (s == 404) = true
    · have hs : s = 404 := by simpa using h404
      subst hs
      rw [run_notFound_eq w inp m hg]
      left
      intro e he
      rcases List.mem_cons.mp he with rfl | h3
      · rfl
      · rw [List.mem_singleton.mp h3]
        rfl
    · have h404f : (s == 404) = false := by simpa using h404
      rw [run_verErr_eq w inp s m hg h404f]
      apply afterVerify_closeLast
      intro e he
      rcases List.mem_cons.mp he with rfl | h3
      · rfl
      · rw [List.mem_singleton.mp h3]
        rfl
  · cases u
    rw [run_okStart_eq w inp hg]
    apply afterVerify_closeLast
    intro e he
    rw [List.mem_singleton.mp he]
    rfl

theorem mem_of_getElem?_ev {l : List Event} {i : Nat} {a : Event}
    (h : l[i]? = some a) : a ∈ l := by
  obtain ⟨hlt, hEq⟩ := List.getElem?_eq_some.mp h
  exact hEq ▸ List.getElem_mem hlt

/-- Claim C9: the issue-close mutation never precedes a comment post — every
comment event in the run occurs at an earlier position than every close
event. -/
theorem C9_theorem (w : World) (inp : Inputs) (i j : Nat)
    (o r n o2 r2 n2 b : String)
    (hi : (run w inp).events[i]? = some (Event.close o r n))
    (hj : (run w inp).events[j]? = some (Event.comment o2 r2 n2 b)) : j < i := by
  rcases run_closeLast w inp with hfree | ⟨pre, hpre, hfree⟩
  · exfalso
    have hm := hfree _ (mem_of_getElem?_ev hi)
    simp [isCloseEv] at hm
  · rw [hpre] at hi hj
    have hip : ¬ i < pre.length := by
      intro hlt
      rw [List.getElem?_append_left hlt] at hi
      have hm := hfree _ (mem_of_getElem?_ev hi)
      simp [isCloseEv] at hm
    have hjp : j < pre.length := by
      by_contra hge
      have hge2 : pre.length ≤ j := Nat.le_of_not_lt hge
      rw [List.getElem?_append_right hge2] at hj
      cases hd : j - pre.length with
      | zero =>
        rw [hd] at hj
        simp at hj
      | succ k =>
        rw [hd] at hj
        simp at hj
    exact Nat.lt_of_lt_of_le hjp (Nat.le_of_not_lt hip)

set_option maxRecDepth 8000 in
/-- Witness for C9_theorem: in the concrete empty-set run with closure
requested, the NoAdminsFound comment (index 3) precedes the close
(index 4). -/
theorem C9_witness :
    (run wEmpty inp0).events[4]? = some (Event.close "iorg" "tracker" "7")
    ∧ (run wEmpty inp0).events[3]?
        = some (Event.comment "iorg" "tracker" "7" (noAdminsBody inp0 "target-repo"))
    ∧ 3 < 4 :=
  ⟨by decide, by decide,
   C9_theorem wEmpty inp0 4 3 "iorg" "tracker" "7" "iorg" "tracker" "7"
     (noAdminsBody inp0 "target-repo") (by decide) (by decide)⟩

theorem reposOk_of_none (inp : Inputs) (q : String) (e : Event)
    (h1 : repoCallTarget e = none) (h2 : issueCallRepo e = none) :
    eventReposOk inp q e := by
  constructor
  · intro r hr
    rw [h1] at hr
    cases hr
  · intro r hr
    rw [h2] at hr
    cases hr

theorem reposOk_comment (inp : Inputs) (q : String) (body : String) :
    eventReposOk inp q (commentEvent inp body) := by
  constructor
  · intro r hr
    simp [commentEvent, repoCallTarget] at hr
  · intro r hr
    simp only [commentEvent, issueCallRepo, Option.some.injEq] at hr
    exact hr.symm

theorem reposOk_close (inp : Inputs) (q : String) :
    eventReposOk inp q (Event.close inp.issueOrg inp.repo inp.issueNumber) := by
  constructor
  · intro r hr
    simp [repoCallTarget] at hr
  · intro r hr
    simp only [issueCallRepo, Option.some.injEq] at hr
    exact hr.symm

theorem reposOk_dataCall (inp : Inputs) (q : String) (e : Event)
    (h1 : repoCallTarget e = some q) (h2 : issueCallRepo e = none) :
    eventReposOk inp q e := by
  constructor
  · intro r hr
    rw [h1] at hr
    exact (Option.some.injEq .. ▸ hr).symm
  · intro r hr
    rw [h2] at hr
    cases hr

theorem closeStep_reposOk (inp : Inputs) (q : String) (evs : List Event) (f : Bool)
    (h : ∀ e ∈ evs, eventReposOk inp q e) :
    ∀ e ∈ (closeStep inp evs f).events, eventReposOk inp q e := by
  unfold closeStep
  split
  · intro e he
    rcases List.mem_append.mp he with h1 | h2
    · exact h e h1
    · rw [List.mem_singleton.mp h2]
      exact reposOk_close inp q
  · exact h

theorem emailLoop_reposOk (w : World) (inp : Inputs) (q : String) (l : List String) :
    ∀ (b : String) (evs : List Event), (∀ e ∈ evs, eventReposOk inp q e) →
      ∀ e ∈ (emailLoop w l b evs).2.1, eventReposOk inp q e := by
  induction l with
  | nil => intro b evs h; exact h
  | cons a rest ih =>
    intro b evs h
    have h2 : ∀ e ∈ evs ++ [Event.getUser a], eventReposOk inp q e := by
      intro e he
      rcases List.mem_append.mp he with h1 | h2
      · exact h e h1
      · rw [List.mem_singleton.mp h2]
        exact reposOk_of_none inp q _ rfl rfl
    cases hm : w.getUserEmail a with
    | error m =>
      simp only [emailLoop, hm]
      exact h2
    | ok em =>
      simp only [emailLoop, hm]
      exact ih _ _ h2

theorem finish_reposOk (w : World) (inp : Inputs) (q : String) (a : List String)
    (evs : List Event) (f : Bool) (h : ∀ e ∈ evs, eventReposOk inp q e) :
    ∀ e ∈ (finish w inp q a evs f).events, eventReposOk inp q e := by
  unfold finish
  split
  · apply closeStep_reposOk
    intro e he
    rcases List.mem_append.mp he with h1 | h2
    · exact h e h1
    · rw [List.mem_singleton.mp h2]
      exact reposOk_comment inp q _
  · rcases hml : emailLoop w a (successHeader inp q) evs with ⟨b, evs2, cr⟩
    have h2 : ∀ e ∈ evs2, eventReposOk inp q e := by
      have := emailLoop_reposOk w inp q a (successHeader inp q) evs h
      rw [hml] at this
      exact this
    cases cr with
    | true => exact h2
    | false =>
      apply closeStep_reposOk
      intro e he
      rcases List.mem_append.mp he with h1 | h3
      · exact h2 e h1
      · rw [List.mem_singleton.mp h3]
        exact reposOk_comment inp q _

theorem teamLoop_reposOk (w : World) (inp : Inputs) (q : String) (ts : List Team) :
    ∀ (a : List String) (evs : List Event) (f : Bool),
      (∀ e ∈ evs, eventReposOk inp q e) →
      ∀ e ∈ (teamLoop w inp q ts a evs f).events, eventReposOk inp q e := by
  induction ts with
  | nil => intro a evs f h; exact finish_reposOk w inp q a evs f h
  | cons t rest ih =>
    intro a evs f h
    cases hm : w.listTeamMembers inp.org t.slug with
    | error m =>
      simp only [teamLoop, hm]
      apply ih
      intro e he
      rcases List.mem_append.mp he with h1 | h2
      · exact h e h1
      · rcases List.mem_cons.mp h2 with rfl | h3
        · exact reposOk_of_none inp q _ rfl rfl
        · rw [List.mem_singleton.mp h3]
          exact reposOk_comment inp q _
    | ok ms =>
      simp only [teamLoop, hm]
      apply ih
      intro e he
      rcases List.mem_append.mp he with h1 | h2
      · exact h e h1
      · rw [List.mem_singleton.mp h2]
        exact reposOk_of_none inp q _ rfl rfl

theorem afterCollab_reposOk (w : World) (inp : Inputs) (q : String) (a : List String)
    (evs : List Event) (f : Bool) (h : ∀ e ∈ evs, eventReposOk inp q e) :
    ∀ e ∈ (afterCollab w inp q a evs f).events, eventReposOk inp q e := by
  cases ht : w.listTeams inp.org q with
  | error m =>
    rw [afterCollab_teamsErr_eq w inp q a evs f m ht]
    intro e he
    rcases List.mem_append.mp he with h1 | h2
    · exact h e h1
    · rcases List.mem_cons.mp h2 with rfl | h3
      · exact reposOk_dataCall inp q _ rfl rfl
      · rw [List.mem_singleton.mp h3]
        exact reposOk_comment inp q _
  | ok ts =>
    rw [afterCollab_ok_eq w inp q a evs f ts ht]
    apply teamLoop_reposOk
    intro e he
    rcases List.mem_append.mp he with h1 | h2
    · exact h e h1
    · rw [List.mem_singleton.mp h2]
      exact reposOk_dataCall inp q _ rfl rfl

theorem afterVerify_reposOk (w : World) (inp : Inputs) (q : String)
    (evs : List Event) (f : Bool) (h : ∀ e ∈ evs, eventReposOk inp q e) :
    ∀ e ∈ (afterVerify w inp q evs f).events, eventReposOk inp q e := by
  cases hc : w.listCollaborators inp.org q with
  | error m =>
    rw [afterVerify_collabErr_eq w inp q evs f m hc]
    intro e he
    rcases List.mem_append.mp he with h1 | h2
    · exact h e h1
    · rcases List.mem_cons.mp h2 with rfl | h3
      · exact reposOk_dataCall inp q _ rfl rfl
      · rw [List.mem_singleton.mp h3]
        exact reposOk_comment inp q _
  | ok cs =>
    rw [afterVerify_ok_eq w inp q evs f cs hc]
    apply afterCollab_reposOk
    intro e he
    rcases List.mem_append.mp he with h1 | h2
    · exact h e h1
    · rw [List.mem_singleton.mp h2]
      exact reposOk_dataCall inp q _ rfl rfl

/-- Claim C10: every repository-data call (existence check, collaborator
listing, team listing) of the run targets the last space-separated token of
the trimmed `body` input (`queryRepoOf`), and every tracking-issue call
(comment post, issue close) targets the `repo` input. -/
theorem C10_theorem (w : World) (inp : Inputs) :
    ∀ e ∈ (run w inp).events,
      (∀ r, repoCallTarget e = some r → r = queryRepoOf inp) ∧
      (∀ r, issueCallRepo e = some r → r = inp.repo) := by
  rcases hg : w.getRepo inp.org (queryRepoOf inp) with e | u
  · obtain ⟨s, m⟩ := e
    by_cases h404 : (s == 404) = true
    · have hs : s = 404 := by simpa using h404
      subst hs
      rw [run_notFound_eq w inp m hg]
      intro e he
      rcases List.mem_cons.mp he with rfl | h2
      · exact reposOk_dataCall inp (queryRepoOf inp) _ rfl rfl
      · rw [List.mem_singleton.mp h2]
        exact reposOk_comment inp (queryRepoOf inp) _
    · have h404f : (s == 404) = false := by simpa using h404
      rw [run_verErr_eq w inp s m hg h404f]
      apply afterVerify_reposOk
      intro e he
      rcases List.mem_cons.mp he with rfl | h2
      · exact reposOk_dataCall inp (queryRepoOf inp) _ rfl rfl
      · rw [List.mem_singleton.mp h2]
        exact reposOk_comment inp (queryRepoOf inp) _
  · cases u
    rw [run_okStart_eq w inp hg]
    apply afterVerify_reposOk
    intro e he
    rw [List.mem_singleton.mp he]
    exact reposOk_dataCall inp (queryRepoOf inp) _ rfl rfl

set_option maxRecDepth 8000 in
/-- Witness for C10_theorem: the existence-check event of the concrete
success run targets `target-repo`, the last token of the body input. -/
theorem C10_witness :
    (∀ r, repoCallTarget (Event.getRepo "acme" "target-repo") = some r → r = queryRepoOf inp0) ∧
    (∀ r, issueCallRepo (Event.getRepo "acme" "target-repo") = some r → r = inp0.repo) :=
  C10_theorem wSuccess inp0 (Event.getRepo "acme" "target-repo") (by decide)
